import Mathlib

/-!
Verification of the column-lineage interaction-state engine of
`web/client/src/library/pages/root/Page.tsx` (the `LineageFlowProvider`
component): the active-edge index (`addActiveEdges`, `removeActiveEdges`),
the connectivity cache (`connections`), the derived views (`isActiveColumn`,
`selectedEdges`), and the query helpers.

Modelling conventions:
- A JavaScript `Map` (insertion-ordered, `set` updates the existing entry in
  place) is embedded as an association list `List (κ × α)`; `jget`, `jset`
  and `jdelete` below mirror `Map.get`, `Map.set` and `Map.delete`.
- Batches (`edges.forEach`) become `List.foldl` over the batch in array order.
- `addActiveEdges` in the source reads the two per-endpoint arrays with
  `get(..) ?? []` *before* any write; when both endpoints are the same key
  and the key is present, the two reads alias the same array object, so a
  not-yet-present self-loop pair is pushed twice into that one array.  When
  the key is absent, `?? []` produces two distinct fresh arrays and the
  second `set` overwrites the first, leaving a single copy.  The pure
  embedding `addActiveEdgesStep` reproduces both behaviours exactly.
- Reference semantics (shared array objects between the previous snapshot
  and the updated map) matter only for the snapshot-immutability claim; a
  separate explicit-store embedding (`addActiveEdgesHeap`) captures it.
-/

/-- JavaScript `Map.get`: first binding of the key in the association list,
`none` when the key is absent. -/
def jget {κ α : Type} [DecidableEq κ] (m : List (κ × α)) (k : κ) : Option α :=
  match m with
  | [] => none
  | kv :: t => if kv.1 = k then some kv.2 else jget t k

/-- JavaScript `Map.set`: replace the first binding of the key in place,
or append a new binding at the end when the key is absent. -/
def jset {κ α : Type} [DecidableEq κ] (m : List (κ × α)) (k : κ) (v : α) :
    List (κ × α) :=
  match m with
  | [] => [(k, v)]
  | kv :: t => if kv.1 = k then (k, v) :: t else kv :: jset t k v

/-- JavaScript `Map.delete`: drop every binding of the key. -/
def jdelete {κ α : Type} [DecidableEq κ] (m : List (κ × α)) (k : κ) :
    List (κ × α) :=
  m.filter fun kv => decide (kv.1 ≠ k)

/-- JavaScript `Map.has`. -/
def containsKey {κ α : Type} [DecidableEq κ] (m : List (κ × α)) (k : κ) : Bool :=
  (jget m k).isSome

/-- The `activeEdges.get(k) ?? []` read used throughout the source. -/
def getD {κ α : Type} [DecidableEq κ] (m : List (κ × List α)) (k : κ) : List α :=
  (jget m k).getD []

/-- An active edge `[leftConnect, rightConnect]` (Page.tsx `ActiveEdges`
values are `Array<[string, string]>`). -/
abbrev Edge := String × String

/-- The active-edge index `ActiveEdges = Map<string, Array<[string, string]>>`
(Page.tsx line 238). -/
abbrev ActiveEdges := List (String × List Edge)

/-- Embeds the body of the `edges.forEach` loop of `addActiveEdges`
(Page.tsx lines 366-386) for one pair: read both endpoint lists with
`get(..) ?? []`, check for an exact duplicate of the pair in each list
(`isFalse(hasDuplicate…)` guards, where the `isFalse` utility is
`x === false`), push the pair where absent, and `set` both keys.  The
`e.1 = e.2` branch reproduces the JavaScript aliasing of the two reads:
for a present key both reads return the same array object so a missing
pair is pushed twice; for an absent key `?? []` makes two distinct fresh
arrays and the second `set` wins, keeping one copy. -/
def addActiveEdgesStep (m : ActiveEdges) (e : Edge) : ActiveEdges :=
  if e.1 = e.2 then
    match jget m e.1 with
    | none => jset m e.1 [e]
    | some arr => if e ∈ arr then jset m e.1 arr else jset m e.1 (arr ++ [e, e])
  else
    let left := getD m e.1
    let right := getD m e.2
    let left1 := if e ∈ left then left else left ++ [e]
    let right1 := if e ∈ right then right else right ++ [e]
    jset (jset m e.1 left1) e.2 right1

/-- Embeds `addActiveEdges` (Page.tsx lines 363-392): process the batch in
array order; the trailing `new Map(activeEdges)` copy is the identity on
the map value. -/
def addActiveEdges (m : ActiveEdges) (es : List Edge) : ActiveEdges :=
  es.foldl addActiveEdgesStep m

/-- Embeds the body of the `edges.forEach` loop of `removeActiveEdges`
acting on the index (Page.tsx lines 397-406): both endpoint lists are
filtered with the source's predicate `e[0] !== left && e[1] !== right`
and both keys are `set` to the filtered lists. -/
def removeActiveEdgesStep (m : ActiveEdges) (e : Edge) : ActiveEdges :=
  let edgesLeft := (getD m e.1).filter fun p => decide (p.1 ≠ e.1) && decide (p.2 ≠ e.2)
  let edgesRight := (getD m e.2).filter fun p => decide (p.1 ≠ e.1) && decide (p.2 ≠ e.2)
  jset (jset m e.1 edgesLeft) e.2 edgesRight

/-- Embeds the index update of `removeActiveEdges` (Page.tsx lines 394-410). -/
def removeActiveEdges (m : ActiveEdges) (es : List Edge) : ActiveEdges :=
  es.foldl removeActiveEdgesStep m

/-- The `Connections` record `{ left: string[]; right: string[] }`
(Page.tsx lines 233-236). -/
structure Connections where
  left : List String
  right : List String
deriving DecidableEq

/-- The `connections` state `Map<string, Connections>` (Page.tsx line 345). -/
abbrev ConnectionsMap := List (String × Connections)

/-- Embeds the body of the `edges.forEach` loop of the `setConnections`
updater inside `removeActiveEdges` (Page.tsx lines 413-416):
`connections.delete(left); connections.delete(right)`. -/
def removeConnectionsStep (c : ConnectionsMap) (e : Edge) : ConnectionsMap :=
  jdelete (jdelete c e.1) e.2

/-- Embeds the connectivity-cache update of `removeActiveEdges`
(Page.tsx lines 412-419). -/
def removeConnections (c : ConnectionsMap) (es : List Edge) : ConnectionsMap :=
  es.foldl removeConnectionsStep c

/-- The side tag `EnumSide` used by `isActiveColumn`. -/
inductive Side where
  | left
  | right
deriving DecidableEq

/-- Modelled from the spec: the `toID` utility from `@utils/index` is not
under src/.  Spec section 4.1: `connectorId(side, model, column) -> string`,
a pure deterministic encoding of the triple used as a map key. -/
def toID (side : Side) (modelName columnName : String) : String :=
  (match side with
    | Side.left => "left"
    | Side.right => "right") ++ "__" ++ modelName ++ "__" ++ columnName

/-- Modelled from the spec: `hasActiveEdge` from `./help` is not under src/.
Spec section 4.2: `hasEdge(pair)` "returns true if the exact pair (in either
stored orientation) exists under either endpoint's list." -/
def hasActiveEdge (m : ActiveEdges) (e : Edge) : Bool :=
  decide (e ∈ getD m e.1) || decide (e ∈ getD m e.2)

/-- Modelled from the spec: `hasActiveEdgeConnector` from `./help` is not
under src/.  Spec section 4.2: `hasEdgeAtConnector(connectorId)` "returns
true if the connector has at least one incident edge." -/
def hasActiveEdgeConnector (m : ActiveEdges) (k : String) : Bool :=
  decide (getD m k ≠ [])

/-- Embeds `isActiveColumn` (Page.tsx lines 424-435): build the left and
right connector IDs for the column and test each with
`hasActiveEdgeConnector`. -/
def isActiveColumn (m : ActiveEdges) (modelName columnName : String) : Bool :=
  hasActiveEdgeConnector m (toID Side.left modelName columnName) ||
  hasActiveEdgeConnector m (toID Side.right modelName columnName)

/-- One mutator call on the active-edge index. -/
inductive EdgeOp where
  | add (es : List Edge)
  | remove (es : List Edge)

/-- Apply one mutator call. -/
def applyOp (m : ActiveEdges) : EdgeOp → ActiveEdges
  | EdgeOp.add es => addActiveEdges m es
  | EdgeOp.remove es => removeActiveEdges m es

/-- Run a sequence of mutator calls from the initial empty index
(`useState<ActiveEdges>(new Map())`, Page.tsx line 344). -/
def runOps (ops : List EdgeOp) : ActiveEdges :=
  ops.foldl applyOp []

/-- Whether some `addActiveEdges` batch in the run mentions the connector
as an endpoint of one of its pairs. -/
def addTouches (ops : List EdgeOp) (k : String) : Bool :=
  ops.any fun op =>
    match op with
    | EdgeOp.add es => es.any fun e => e.1 == k || e.2 == k
    | EdgeOp.remove _ => false

/-- The analyzer output `nodesConnections : Record<string, ConnectedNode>`
(Page.tsx lines 337-339).  Modelled from the spec: the `ConnectedNode` type
from `~/workers/lineage` is not under src/; spec section 3 describes the
value as the node's "precomputed incident-edge list", so it is embedded as
a list of entries. -/
abbrev NodesConnections := List (String × List String)

/-- Embeds the `selectedEdges` memo (Page.tsx lines 442-448):
`Array.from(selectedNodes).map(id => nodesConnections[id]!).flat()`.
The selection set is taken in insertion order as a list.  A lookup of an
absent id yields `undefined` (the non-null assertion is erased at runtime),
and `Array.prototype.flat` keeps non-array elements such as `undefined`,
so an absent id contributes one `none` element; a present id contributes
its list, elementwise wrapped in `some`. -/
def selectedEdges (sel : List String) (nc : NodesConnections) : List (Option String) :=
  (sel.map fun id =>
    match jget nc id with
    | some lst => lst.map some
    | none => [(none : Option String)]).flatten

/-- Follows the spec's words (section 3, selected-edges view): concatenate,
in selection insertion order, the `nodesConnections[id]` list of each
selected id, keeping per-node incidence order. -/
def selectedEdgesSpec (sel : List String) (nc : NodesConnections) : List String :=
  (sel.map fun id => (jget nc id).getD []).flatten

/-- A heap of JavaScript array objects, each named by a numeric reference. -/
abbrev Store := List (Nat × List Edge)

/-- A `Map` value whose entries reference array objects in the store. -/
abbrev RefMap := List (String × Nat)

/-- Allocate a fresh array object. -/
def allocRef (st : Store) (v : List Edge) : Nat × Store :=
  let fresh := st.foldl (fun a kv => max a kv.1) 0 + 1
  (fresh, st ++ [(fresh, v)])

/-- Contents of the array object behind a reference. -/
def storeGet (st : Store) (i : Nat) : List Edge :=
  (jget st i).getD []

/-- Embeds one `edges.forEach` iteration of `addActiveEdges` (Page.tsx
lines 366-386) with explicit reference semantics for the array objects:
`get(..) ?? []` returns either the reference already stored in the map or
a freshly allocated empty array; `push` mutates the referenced array in
the store; the two `set` calls rebind the keys.  This makes visible that
the arrays already referenced by a previous snapshot of the map are
mutated in place. -/
def addActiveEdgesHeapStep (ms : RefMap × Store) (e : Edge) : RefMap × Store :=
  let m := ms.1
  let st0 := ms.2
  let lref := match jget m e.1 with
    | some i => (i, st0)
    | none => allocRef st0 []
  let li := lref.1
  let st1 := lref.2
  let rref := match jget m e.2 with
    | some i => (i, st1)
    | none => allocRef st1 []
  let ri := rref.1
  let st2 := rref.2
  let leftArr := storeGet st2 li
  let rightArr := storeGet st2 ri
  let hasDupLeft := decide (e ∈ leftArr)
  let hasDupRight := decide (e ∈ rightArr)
  let st3 := if hasDupLeft then st2 else jset st2 li (storeGet st2 li ++ [e])
  let st4 := if hasDupRight then st3 else jset st3 ri (storeGet st3 ri ++ [e])
  (jset (jset m e.1 li) e.2 ri, st4)

/-- Embeds `addActiveEdges` (Page.tsx lines 363-392) over the explicit
store, processing the batch in array order. -/
def addActiveEdgesHeap (m : RefMap) (st : Store) (es : List Edge) : RefMap × Store :=
  es.foldl addActiveEdgesHeapStep (m, st)

/-- The per-key edge list a holder of map snapshot `m` observes under
store `st`. -/
def viewHeap (m : RefMap) (st : Store) (k : String) : List Edge :=
  match jget m k with
  | some i => storeGet st i
  | none => []

/-! ### Association-list lemmas -/

theorem jget_jset {κ α : Type} [DecidableEq κ] (m : List (κ × α)) (a k : κ) (v : α) :
    jget (jset m a v) k = if a = k then some v else jget m k := by
  induction m with
  | nil =>
    simp only [jset, jget]
  | cons kv t ih =>
    by_cases h1 : kv.1 = a
    · by_cases h2 : a = k
      · simp [jset, jget, h1, h2]
      · simp [jset, jget, h1, h2, h1.symm ▸ h2]
    · by_cases h2 : kv.1 = k
      · have hak : ¬ a = k := fun h => h1 (h2.trans h.symm)
        have hka : ¬ k = a := fun h => hak h.symm
        simp [jset, jget, h1, h2, hak, hka]
      · simp [jset, jget, h1, h2, ih]

theorem jset_eq_self {κ α : Type} [DecidableEq κ] (m : List (κ × α)) (k : κ) (v : α)
    (h : jget m k = some v) : jset m k v = m := by
  induction m with
  | nil => simp [jget] at h
  | cons kv t ih =>
    obtain ⟨k1, v1⟩ := kv
    by_cases h1 : k1 = k
    · simp only [jget, h1, if_pos rfl] at h
      simp only [jset, h1, if_pos rfl]
      simp at h
      simp [h1, h]
    · simp only [jget, h1, if_neg h1] at h
      simp [jset, h1, ih h]

theorem jget_jdelete {κ α : Type} [DecidableEq κ] (m : List (κ × α)) (a k : κ) :
    jget (jdelete m a) k = if a = k then none else jget m k := by
  induction m with
  | nil => simp [jget, jdelete]
  | cons kv t ih =>
    by_cases h1 : kv.1 = a
    · have : jdelete (kv :: t) a = jdelete t a := by
        simp [jdelete, List.filter_cons, h1]
      rw [this, ih]
      by_cases h2 : a = k
      · simp [h2]
      · have h3 : ¬ kv.1 = k := fun h => h2 (h1.symm.trans h)
        simp [h2, jget, h3]
    · have : jdelete (kv :: t) a = kv :: jdelete t a := by
        simp [jdelete, List.filter_cons, h1]
      rw [this]
      by_cases h2 : kv.1 = k
      · have hak : ¬ a = k := fun h => h1 (h2.trans h.symm)
        simp [jget, h2, hak]
      · simp [jget, h2, ih]

theorem getD_jset {κ α : Type} [DecidableEq κ] (m : List (κ × List α)) (a k : κ)
    (v : List α) : getD (jset m a v) k = if a = k then v else getD m k := by
  unfold getD
  rw [jget_jset]
  by_cases h : a = k <;> simp [h]

theorem containsKey_jset {κ α : Type} [DecidableEq κ] (m : List (κ × α)) (a k : κ)
    (v : α) : containsKey (jset m a v) k = (decide (a = k) || containsKey m k) := by
  unfold containsKey
  rw [jget_jset]
  by_cases h : a = k <;> simp [h]

/-! ### Lemmas about one `addActiveEdges` iteration -/

theorem addStep_selfloop_mem (m : ActiveEdges) (e : Edge) (arr : List Edge)
    (hd : e.1 = e.2) (hj : jget m e.1 = some arr) (hm : e ∈ arr) :
    addActiveEdgesStep m e = jset m e.1 arr := by
  rw [hd] at hj
  simp [addActiveEdgesStep, hd, hj, hm]

theorem addStep_selfloop_nomem (m : ActiveEdges) (e : Edge) (arr : List Edge)
    (hd : e.1 = e.2) (hj : jget m e.1 = some arr) (hm : e ∉ arr) :
    addActiveEdgesStep m e = jset m e.1 (arr ++ [e, e]) := by
  rw [hd] at hj
  simp [addActiveEdgesStep, hd, hj, hm]

theorem addStep_selfloop_none (m : ActiveEdges) (e : Edge)
    (hd : e.1 = e.2) (hj : jget m e.1 = none) :
    addActiveEdgesStep m e = jset m e.1 [e] := by
  rw [hd] at hj
  simp [addActiveEdgesStep, hd, hj]

theorem addStep_twokeys (m : ActiveEdges) (e : Edge) (hd : e.1 ≠ e.2) :
    addActiveEdgesStep m e =
      jset (jset m e.1
        (if e ∈ getD m e.1 then getD m e.1 else getD m e.1 ++ [e])) e.2
        (if e ∈ getD m e.2 then getD m e.2 else getD m e.2 ++ [e]) := by
  simp [addActiveEdgesStep, hd]

theorem mem_push_self (l : List Edge) (e : Edge) :
    e ∈ (if e ∈ l then l else l ++ [e]) := by
  by_cases h : e ∈ l <;> simp [h]

theorem mem_push_iff (l : List Edge) (e q : Edge) (h : q ≠ e) :
    (q ∈ (if e ∈ l then l else l ++ [e])) ↔ q ∈ l := by
  by_cases he : e ∈ l <;> simp [he, h]

theorem addStep_spec (m : ActiveEdges) (e : Edge) :
    (e ∈ getD (addActiveEdgesStep m e) e.1 ∧ e ∈ getD (addActiveEdgesStep m e) e.2) ∧
    (∀ (q : Edge) (k : String), q ≠ e →
      (q ∈ getD (addActiveEdgesStep m e) k ↔ q ∈ getD m k)) ∧
    (∀ k : String, k ≠ e.1 → k ≠ e.2 →
      getD (addActiveEdgesStep m e) k = getD m k) := by
  by_cases hd : e.1 = e.2
  · cases hj : jget m e.1 with
    | none =>
      rw [addStep_selfloop_none m e hd hj]
      refine ⟨⟨?_, ?_⟩, ?_, ?_⟩
      · rw [getD_jset]
        simp
      · rw [getD_jset]
        simp [hd]
      · intro q k hq
        rw [getD_jset]
        by_cases hk : e.1 = k
        · subst hk
          simp [getD, hj, hq]
        · simp [hk]
      · intro k hk1 _
        have h1n : ¬ e.1 = k := fun h => hk1 h.symm
        rw [getD_jset, if_neg h1n]
    | some arr =>
      have harr : getD m e.1 = arr := by simp [getD, hj]
      by_cases hm : e ∈ arr
      · rw [addStep_selfloop_mem m e arr hd hj hm]
        refine ⟨⟨?_, ?_⟩, ?_, ?_⟩
        · rw [getD_jset]
          simp [hm]
        · rw [getD_jset]
          simp [hd, hm]
        · intro q k hq
          rw [getD_jset]
          by_cases hk : e.1 = k
          · subst hk
            simp [harr]
          · simp [hk]
        · intro k hk1 _
          have h1n : ¬ e.1 = k := fun h => hk1 h.symm
          rw [getD_jset, if_neg h1n]
      · rw [addStep_selfloop_nomem m e arr hd hj hm]
        refine ⟨⟨?_, ?_⟩, ?_, ?_⟩
        · rw [getD_jset]
          simp
        · rw [getD_jset]
          simp [hd]
        · intro q k hq
          rw [getD_jset]
          by_cases hk : e.1 = k
          · subst hk
            simp [harr, hq]
          · simp [hk]
        · intro k hk1 _
          have h1n : ¬ e.1 = k := fun h => hk1 h.symm
          rw [getD_jset, if_neg h1n]
  · rw [addStep_twokeys m e hd]
    have hne : e.2 ≠ e.1 := fun h => hd h.symm
    refine ⟨⟨?_, ?_⟩, ?_, ?_⟩
    · rw [getD_jset, if_neg hne, getD_jset, if_pos rfl]
      exact mem_push_self _ _
    · rw [getD_jset, if_pos rfl]
      exact mem_push_self _ _
    · intro q k hq
      rw [getD_jset, getD_jset]
      by_cases hk2 : e.2 = k
      · rw [if_pos hk2]
        subst hk2
        exact mem_push_iff _ _ _ hq
      · rw [if_neg hk2]
        by_cases hk1 : e.1 = k
        · rw [if_pos hk1]
          subst hk1
          exact mem_push_iff _ _ _ hq
        · rw [if_neg hk1]
    · intro k hk1 hk2
      have h2n : ¬ e.2 = k := fun h => hk2 h.symm
      have h1n : ¬ e.1 = k := fun h => hk1 h.symm
      rw [getD_jset, if_neg h2n, getD_jset, if_neg h1n]

theorem addStep_mem_fst (m : ActiveEdges) (e : Edge) :
    e ∈ getD (addActiveEdgesStep m e) e.1 :=
  (addStep_spec m e).1.1

theorem addStep_mem_snd (m : ActiveEdges) (e : Edge) :
    e ∈ getD (addActiveEdgesStep m e) e.2 :=
  (addStep_spec m e).1.2

theorem addStep_mem_ne (m : ActiveEdges) (e q : Edge) (k : String) (h : q ≠ e) :
    q ∈ getD (addActiveEdgesStep m e) k ↔ q ∈ getD m k :=
  (addStep_spec m e).2.1 q k h

theorem addStep_untouched (m : ActiveEdges) (e : Edge) (k : String)
    (h1 : k ≠ e.1) (h2 : k ≠ e.2) :
    getD (addActiveEdgesStep m e) k = getD m k :=
  (addStep_spec m e).2.2 k h1 h2

theorem addStep_mono (m : ActiveEdges) (e q : Edge) (k : String)
    (h : q ∈ getD m k) : q ∈ getD (addActiveEdgesStep m e) k := by
  by_cases hq : q = e
  · subst hq
    by_cases hk1 : k = q.1
    · subst hk1
      exact addStep_mem_fst m q
    · by_cases hk2 : k = q.2
      · subst hk2
        exact addStep_mem_snd m q
      · rw [addStep_untouched m q k hk1 hk2]
        exact h
  · exact (addStep_mem_ne m e q k hq).mpr h

/-! ### Lemmas about whole `addActiveEdges` batches -/

theorem jget_of_mem_getD {κ α : Type} [DecidableEq κ] (m : List (κ × List α))
    (k : κ) (a : α) (h : a ∈ getD m k) : jget m k = some (getD m k) := by
  cases hj : jget m k with
  | none => simp [getD, hj] at h
  | some arr => simp [getD, hj]

theorem addStep_eq_self (m : ActiveEdges) (e : Edge)
    (h1 : e ∈ getD m e.1) (h2 : e ∈ getD m e.2) :
    addActiveEdgesStep m e = m := by
  by_cases hd : e.1 = e.2
  · have hj : jget m e.1 = some (getD m e.1) := jget_of_mem_getD m e.1 e h1
    rw [addStep_selfloop_mem m e (getD m e.1) hd hj h1]
    exact jset_eq_self m e.1 _ hj
  · rw [addStep_twokeys m e hd, if_pos h1, if_pos h2]
    rw [jset_eq_self m e.1 _ (jget_of_mem_getD m e.1 e h1)]
    exact jset_eq_self m e.2 _ (jget_of_mem_getD m e.2 e h2)

theorem add_mono (m : ActiveEdges) (es : List Edge) (q : Edge) (k : String)
    (h : q ∈ getD m k) : q ∈ getD (addActiveEdges m es) k := by
  induction es generalizing m with
  | nil => exact h
  | cons x t ih => exact ih (addActiveEdgesStep m x) (addStep_mono m x q k h)

theorem add_mem_of_mem (m : ActiveEdges) (es : List Edge) (e : Edge) (h : e ∈ es) :
    e ∈ getD (addActiveEdges m es) e.1 ∧ e ∈ getD (addActiveEdges m es) e.2 := by
  induction es generalizing m with
  | nil => cases h
  | cons x t ih =>
    rcases List.mem_cons.mp h with rfl | ht
    · exact ⟨add_mono _ t e e.1 (addStep_mem_fst m e),
        add_mono _ t e e.2 (addStep_mem_snd m e)⟩
    · exact ih (addActiveEdgesStep m x) ht

theorem add_eq_self (m : ActiveEdges) (es : List Edge)
    (h : ∀ e ∈ es, e ∈ getD m e.1 ∧ e ∈ getD m e.2) :
    addActiveEdges m es = m := by
  induction es with
  | nil => rfl
  | cons x t ih =>
    have hx := h x (List.mem_cons_self x t)
    have hstep : addActiveEdgesStep m x = m := addStep_eq_self m x hx.1 hx.2
    show addActiveEdges (addActiveEdgesStep m x) t = m
    rw [hstep]
    exact ih fun e he => h e (List.mem_cons_of_mem x he)

/-- The bidirectional-consistency invariant of spec section 3: an edge is
present in the list under its left endpoint exactly when it is present in
the list under its right endpoint. -/
def Biconsistent (m : ActiveEdges) : Prop :=
  ∀ e : Edge, e ∈ getD m e.1 ↔ e ∈ getD m e.2

theorem addStep_biconsistent (m : ActiveEdges) (e : Edge)
    (h : Biconsistent m) : Biconsistent (addActiveEdgesStep m e) := by
  intro q
  by_cases hq : q = e
  · subst hq
    exact iff_of_true (addStep_mem_fst m q) (addStep_mem_snd m q)
  · rw [addStep_mem_ne m e q q.1 hq, addStep_mem_ne m e q q.2 hq]
    exact h q

theorem add_biconsistent (m : ActiveEdges) (es : List Edge)
    (h : Biconsistent m) : Biconsistent (addActiveEdges m es) := by
  induction es generalizing m with
  | nil => exact h
  | cons x t ih => exact ih (addActiveEdgesStep m x) (addStep_biconsistent m x h)

/-! ### Lemmas about `removeActiveEdges` and the connectivity cache -/

theorem removeStep_eq (m : ActiveEdges) (e : Edge) :
    removeActiveEdgesStep m e =
      jset (jset m e.1
        ((getD m e.1).filter fun p => decide (p.1 ≠ e.1) && decide (p.2 ≠ e.2))) e.2
        ((getD m e.2).filter fun p => decide (p.1 ≠ e.1) && decide (p.2 ≠ e.2)) := by
  simp [removeActiveEdgesStep]

theorem removeStep_containsKey (m : ActiveEdges) (e : Edge) (k : String) :
    containsKey (removeActiveEdgesStep m e) k =
      (decide (e.2 = k) || decide (e.1 = k) || containsKey m k) := by
  rw [removeStep_eq, containsKey_jset, containsKey_jset]
  by_cases h2 : e.2 = k <;> by_cases h1 : e.1 = k <;> simp [h1, h2]

theorem removeStep_getD_empty (m : ActiveEdges) (e : Edge) (k : String)
    (h : getD m k = []) : getD (removeActiveEdgesStep m e) k = [] := by
  rw [removeStep_eq, getD_jset, getD_jset]
  by_cases h2 : e.2 = k
  · rw [if_pos h2, h2, h]
    rfl
  · rw [if_neg h2]
    by_cases h1 : e.1 = k
    · rw [if_pos h1, h1, h]
      rfl
    · rw [if_neg h1]
      exact h

theorem remove_containsKey_mono (m : ActiveEdges) (es : List Edge) (k : String)
    (h : containsKey m k = true) :
    containsKey (removeActiveEdges m es) k = true := by
  induction es generalizing m with
  | nil => exact h
  | cons x t ih =>
    refine ih (removeActiveEdgesStep m x) ?_
    rw [removeStep_containsKey, h]
    simp

theorem remove_containsKey_of_mem (m : ActiveEdges) (es : List Edge) (l r : String)
    (h : (l, r) ∈ es) :
    containsKey (removeActiveEdges m es) l = true ∧
    containsKey (removeActiveEdges m es) r = true := by
  induction es generalizing m with
  | nil => cases h
  | cons x t ih =>
    rcases List.mem_cons.mp h with rfl | ht
    · constructor
      · refine remove_containsKey_mono _ t l ?_
        rw [removeStep_containsKey]
        simp
      · refine remove_containsKey_mono _ t r ?_
        rw [removeStep_containsKey]
        simp
    · exact ih (removeActiveEdgesStep m x) ht

theorem remove_getD_empty (m : ActiveEdges) (es : List Edge) (k : String)
    (h : getD m k = []) : getD (removeActiveEdges m es) k = [] := by
  induction es generalizing m with
  | nil => exact h
  | cons x t ih => exact ih (removeActiveEdgesStep m x) (removeStep_getD_empty m x k h)

theorem getD_of_not_containsKey {κ α : Type} [DecidableEq κ]
    (m : List (κ × List α)) (k : κ) (h : containsKey m k = false) :
    getD m k = [] := by
  unfold containsKey at h
  cases hj : jget m k with
  | none => simp [getD, hj]
  | some arr => rw [hj] at h; simp at h

theorem jget_eq_some_nil {κ α : Type} [DecidableEq κ] (m : List (κ × List α))
    (k : κ) (h1 : containsKey m k = true) (h2 : getD m k = []) :
    jget m k = some ([] : List α) := by
  unfold containsKey at h1
  cases hj : jget m k with
  | none => rw [hj] at h1; simp at h1
  | some arr =>
    rw [← h2]
    simp [getD, hj]

theorem jget_removeConnectionsStep (c : ConnectionsMap) (e : Edge) (k : String) :
    jget (removeConnectionsStep c e) k =
      if e.1 = k ∨ e.2 = k then none else jget c k := by
  unfold removeConnectionsStep
  rw [jget_jdelete, jget_jdelete]
  by_cases h2 : e.2 = k <;> by_cases h1 : e.1 = k <;> simp [h1, h2]

theorem removeConnections_none (c : ConnectionsMap) (es : List Edge) (k : String)
    (h : jget c k = none) : jget (removeConnections c es) k = none := by
  induction es generalizing c with
  | nil => exact h
  | cons x t ih =>
    refine ih (removeConnectionsStep c x) ?_
    rw [jget_removeConnectionsStep]
    by_cases hx : x.1 = k ∨ x.2 = k <;> simp [hx, h]

theorem add_untouched (m : ActiveEdges) (es : List Edge) (k : String)
    (h : ∀ e ∈ es, e.1 ≠ k ∧ e.2 ≠ k) :
    getD (addActiveEdges m es) k = getD m k := by
  induction es generalizing m with
  | nil => rfl
  | cons x t ih =>
    have hx := h x (List.mem_cons_self x t)
    show getD (addActiveEdges (addActiveEdgesStep m x) t) k = getD m k
    rw [ih (addActiveEdgesStep m x) fun e he => h e (List.mem_cons_of_mem x he)]
    exact addStep_untouched m x k (fun hh => hx.1 hh.symm) (fun hh => hx.2 hh.symm)

theorem runOps_getD_empty_aux (ops : List EdgeOp) (m : ActiveEdges) (k : String)
    (hm : getD m k = []) (h : addTouches ops k = false) :
    getD (ops.foldl applyOp m) k = [] := by
  induction ops generalizing m with
  | nil => exact hm
  | cons op t ih =>
    cases op with
    | add es =>
      have h' : (es.any fun e => e.1 == k || e.2 == k) = false ∧ addTouches t k = false := by
        simpa [addTouches, List.any_cons] using h
      refine ih (addActiveEdges m es) ?_ h'.2
      rw [add_untouched m es k ?_, hm]
      intro e he
      have := List.any_eq_false.mp h'.1 e he
      simp at this
      exact this
    | remove es =>
      have h' : addTouches t k = false := by
        simpa [addTouches, List.any_cons] using h
      exact ih (removeActiveEdges m es) (remove_getD_empty m es k hm) h'

theorem runOps_getD_empty (ops : List EdgeOp) (k : String)
    (h : addTouches ops k = false) : getD (runOps ops) k = [] :=
  runOps_getD_empty_aux ops [] k rfl h

theorem removeConnections_untouched (c : ConnectionsMap) (es : List Edge) (k : String)
    (h : ∀ e ∈ es, e.1 ≠ k ∧ e.2 ≠ k) :
    jget (removeConnections c es) k = jget c k := by
  induction es generalizing c with
  | nil => rfl
  | cons x t ih =>
    have hx := h x (List.mem_cons_self x t)
    show jget (removeConnections (removeConnectionsStep c x) t) k = jget c k
    rw [ih (removeConnectionsStep c x) fun e he => h e (List.mem_cons_of_mem x he)]
    rw [jget_removeConnectionsStep]
    simp [hx.1, hx.2]

theorem removeConnections_of_mem (c : ConnectionsMap) (es : List Edge) (l r : String)
    (h : (l, r) ∈ es) :
    jget (removeConnections c es) l = none ∧
    jget (removeConnections c es) r = none := by
  induction es generalizing c with
  | nil => cases h
  | cons x t ih =>
    rcases List.mem_cons.mp h with rfl | ht
    · constructor
      · refine removeConnections_none _ t l ?_
        rw [jget_removeConnectionsStep]
        simp
      · refine removeConnections_none _ t r ?_
        rw [jget_removeConnectionsStep]
        simp
    · exact ih (removeConnectionsStep c x) ht

/-! ### Lemmas about the `selectedEdges` memo -/

theorem selectedEdges_cons (id : String) (t : List String) (nc : NodesConnections) :
    selectedEdges (id :: t) nc =
      (match jget nc id with
        | some lst => lst.map some
        | none => [(none : Option String)]) ++ selectedEdges t nc := by
  simp [selectedEdges]

theorem selectedEdgesSpec_cons (id : String) (t : List String) (nc : NodesConnections) :
    selectedEdgesSpec (id :: t) nc = (jget nc id).getD [] ++ selectedEdgesSpec t nc := by
  simp [selectedEdgesSpec]

/-! ### Claim theorems -/

/-- C1: the claim asserts exact-match removal: after adding edges (A,B) and
(A,C), removing only (A,B) must leave hasEdge((A,C)) true and
hasEdgeAtConnector(A) true.  The source's filter predicate
`e[0] !== left && e[1] !== right` keeps only entries whose first component
differs from the removed left endpoint AND whose second differs from the
removed right endpoint, so it also drops the sibling edge (A,C) from
index[A].  Evaluating the code at that input: hasEdge((A,C)) is still true
(the pair survives under key C), but hasEdgeAtConnector(A) is false,
contradicting the claim. -/
theorem removeActiveEdges_drops_sibling_edge :
    hasActiveEdge (removeActiveEdges (addActiveEdges [] [("A", "B"), ("A", "C")])
      [("A", "B")]) ("A", "C") = true ∧
    hasActiveEdgeConnector (removeActiveEdges (addActiveEdges [] [("A", "B"), ("A", "C")])
      [("A", "B")]) "A" = false := by
  decide

/-- C2 counterexample: the bidirectional invariant (an edge present under
its left key exactly when present under its right key) does not survive
removeActiveEdges.  After adding (A,B) and (A,C) and removing (A,B), the
pair (A,C) is still in the list under key C but no longer in the list
under key A. -/
theorem bidirectional_invariant_broken_by_remove :
    (("A", "C") : Edge) ∈ getD (removeActiveEdges
      (addActiveEdges [] [("A", "B"), ("A", "C")]) [("A", "B")]) "C" ∧
    (("A", "C") : Edge) ∉ getD (removeActiveEdges
      (addActiveEdges [] [("A", "B"), ("A", "C")]) [("A", "B")]) "A" := by
  decide

/-- C2 (amended): after any addActiveEdges call, every pair (l,r) of the
batch is stored both under key l and under key r, and hasEdgeAtConnector(l),
hasEdgeAtConnector(r) and hasEdge((l,r)) are all true; the bidirectional
invariant is preserved by every addActiveEdges call (so it holds after
every sequence of addActiveEdges operations), but removeActiveEdges can
break it, as the counterexample shows. -/
theorem addActiveEdges_bidirectional (m : ActiveEdges) (es : List Edge) (e : Edge) :
    (e ∈ es →
      e ∈ getD (addActiveEdges m es) e.1 ∧
      e ∈ getD (addActiveEdges m es) e.2 ∧
      hasActiveEdgeConnector (addActiveEdges m es) e.1 = true ∧
      hasActiveEdgeConnector (addActiveEdges m es) e.2 = true ∧
      hasActiveEdge (addActiveEdges m es) e = true) ∧
    (Biconsistent m → Biconsistent (addActiveEdges m es)) := by
  constructor
  · intro he
    obtain ⟨h1, h2⟩ := add_mem_of_mem m es e he
    refine ⟨h1, h2, ?_, ?_, ?_⟩
    · simp only [hasActiveEdgeConnector, decide_eq_true_eq]
      exact List.ne_nil_of_mem h1
    · simp only [hasActiveEdgeConnector, decide_eq_true_eq]
      exact List.ne_nil_of_mem h2
    · simp only [hasActiveEdge, Bool.or_eq_true, decide_eq_true_eq]
      exact Or.inl h1
  · exact add_biconsistent m es

/-- Witness for C2: instantiates the amended theorem at the empty index
and the one-pair batch, discharging both hypotheses. -/
theorem addActiveEdges_bidirectional_witness :
    hasActiveEdge (addActiveEdges [] [(("a", "b") : Edge)]) ("a", "b") = true ∧
    Biconsistent (addActiveEdges [] [(("a", "b") : Edge)]) :=
  ⟨((addActiveEdges_bidirectional [] [("a", "b")] ("a", "b")).1 (by decide)).2.2.2.2,
   (addActiveEdges_bidirectional [] [("a", "b")] ("a", "b")).2 (fun _ => Iff.rfl)⟩

/-- C3: adding the same batch twice yields an index literally equal to
adding it once, and a later occurrence of a pair already in the batch is a
no-op (appending it to the batch changes nothing), so there is no duplicate
entry and no observable difference in any query. -/
theorem addActiveEdges_idempotent (m : ActiveEdges) (es : List Edge) (p : Edge) :
    addActiveEdges (addActiveEdges m es) es = addActiveEdges m es ∧
    (p ∈ es → addActiveEdges m (es ++ [p]) = addActiveEdges m es) := by
  constructor
  · exact add_eq_self _ es fun e he => add_mem_of_mem m es e he
  · intro hp
    have h := add_mem_of_mem m es p hp
    show List.foldl addActiveEdgesStep m (es ++ [p]) = addActiveEdges m es
    rw [List.foldl_append]
    exact addStep_eq_self _ p h.1 h.2

/-- Witness for C3: instantiates the idempotence theorem at a concrete
batch, discharging the membership hypothesis. -/
theorem addActiveEdges_idempotent_witness :
    (("a", "b") : Edge) ∈ [(("a", "b") : Edge)] ∧
    addActiveEdges [] ([(("a", "b") : Edge)] ++ [("a", "b")]) =
      addActiveEdges [] [("a", "b")] :=
  ⟨by decide, (addActiveEdges_idempotent [] [("a", "b")] ("a", "b")).2 (by decide)⟩

/-- C4: isActiveColumn(model, column) returns true exactly when one of the
two connector IDs toID(left, model, column), toID(right, model, column)
has an incident edge in the index, and it returns false on any index
reached by a run of mutator calls in which no addActiveEdges batch ever
mentioned either connector as an endpoint. -/
theorem isActiveColumn_correct (idx : ActiveEdges) (modelName columnName : String) :
    (isActiveColumn idx modelName columnName =
      (hasActiveEdgeConnector idx (toID Side.left modelName columnName) ||
       hasActiveEdgeConnector idx (toID Side.right modelName columnName))) ∧
    (∀ ops : List EdgeOp,
      addTouches ops (toID Side.left modelName columnName) = false →
      addTouches ops (toID Side.right modelName columnName) = false →
      isActiveColumn (runOps ops) modelName columnName = false) := by
  refine ⟨rfl, ?_⟩
  intro ops hL hR
  have h1 := runOps_getD_empty ops _ hL
  have h2 := runOps_getD_empty ops _ hR
  simp [isActiveColumn, hasActiveEdgeConnector, h1, h2]

/-- Witness for C4: a run that adds an unrelated edge never activates the
column A.col1. -/
theorem isActiveColumn_correct_witness :
    addTouches [EdgeOp.add [("x", "y")]] (toID Side.left "A" "col1") = false ∧
    addTouches [EdgeOp.add [("x", "y")]] (toID Side.right "A" "col1") = false ∧
    isActiveColumn (runOps [EdgeOp.add [("x", "y")]]) "A" "col1" = false :=
  ⟨by decide, by decide,
   (isActiveColumn_correct [] "A" "col1").2 [EdgeOp.add [("x", "y")]]
     (by decide) (by decide)⟩

/-- C5: after removeActiveEdges, the connections cache has no entry keyed
by either endpoint of any removed pair, and entries keyed by connectors
not appearing in the batch are unchanged. -/
theorem removeConnections_invalidates (c : ConnectionsMap) (es : List Edge)
    (l r k : String) :
    ((l, r) ∈ es →
      jget (removeConnections c es) l = none ∧
      jget (removeConnections c es) r = none) ∧
    ((∀ e ∈ es, e.1 ≠ k ∧ e.2 ≠ k) →
      jget (removeConnections c es) k = jget c k) :=
  ⟨removeConnections_of_mem c es l r, removeConnections_untouched c es k⟩

/-- Witness for C5: removing the edge (A,B) deletes the cache entry for A
and leaves the entry for Z intact. -/
theorem removeConnections_invalidates_witness :
    jget (removeConnections [("A", Connections.mk [] []), ("Z", Connections.mk [] [])]
      [("A", "B")]) "A" = none ∧
    jget (removeConnections [("A", Connections.mk [] []), ("Z", Connections.mk [] [])]
      [("A", "B")]) "Z" =
      jget [("A", Connections.mk [] []), ("Z", Connections.mk [] [])] "Z" :=
  ⟨((removeConnections_invalidates
      [("A", Connections.mk [] []), ("Z", Connections.mk [] [])]
      [("A", "B")] "A" "B" "Z").1 (by decide)).1,
   (removeConnections_invalidates
      [("A", Connections.mk [] []), ("Z", Connections.mk [] [])]
      [("A", "B")] "A" "B" "Z").2 (by decide)⟩

/-- C6: the claim asserts that removing a pair that is not present leaves
every observable unchanged.  Evaluating the code: with only the edge
(left:A.col1, right:B.col2) in the index, removing the absent pair
(left:A.col1, right:B.col9) flips isActiveColumn("A","col1") from true to
false, because the filter drops the stored edge whose first component
equals the removed pair's left endpoint. -/
theorem removeActiveEdges_absent_pair_changes_index :
    hasActiveEdge (addActiveEdges [] [(toID Side.left "A" "col1", toID Side.right "B" "col2")])
      (toID Side.left "A" "col1", toID Side.right "B" "col9") = false ∧
    isActiveColumn (addActiveEdges [] [(toID Side.left "A" "col1", toID Side.right "B" "col2")])
      "A" "col1" = true ∧
    isActiveColumn (removeActiveEdges
      (addActiveEdges [] [(toID Side.left "A" "col1", toID Side.right "B" "col2")])
      [(toID Side.left "A" "col1", toID Side.right "B" "col9")]) "A" "col1" = false := by
  decide

/-- C7 counterexample: the claim asserts a selected id absent from
nodesConnections contributes nothing to selectedEdges.  Evaluating the
code with selection [A] and empty nodesConnections: the lookup yields
undefined (modelled as none) and `Array.prototype.flat` keeps it, so
selectedEdges is [undefined], not []. -/
theorem selectedEdges_absent_id_contributes :
    selectedEdges ["A"] [] = [none] ∧ selectedEdges ["A"] [] ≠ [] := by
  decide

/-- C7 (amended): the selectedEdges derivation is a total function (it
never faults); every element is either the undefined marker contributed by
a selected id absent from nodesConnections, or an entry of the list of a
present selected id; and each absent selected id does contribute an
undefined element (rather than an empty contribution as originally
claimed). -/
theorem selectedEdges_elements (sel : List String) (nc : NodesConnections) :
    (∀ x ∈ selectedEdges sel nc,
      (x = none ∧ ∃ id ∈ sel, jget nc id = none) ∨
      (∃ id ∈ sel, ∃ lst, jget nc id = some lst ∧ ∃ e ∈ lst, x = some e)) ∧
    (∀ id ∈ sel, jget nc id = none →
      (none : Option String) ∈ selectedEdges sel nc) := by
  induction sel with
  | nil =>
    constructor
    · intro x hx
      simp [selectedEdges] at hx
    · intro id hid
      cases hid
  | cons id t ih =>
    constructor
    · intro x hx
      rw [selectedEdges_cons] at hx
      rcases List.mem_append.mp hx with hx1 | hx2
      · cases hj : jget nc id with
        | none =>
          rw [hj] at hx1
          refine Or.inl ⟨by simpa using hx1, id, List.mem_cons_self id t, hj⟩
        | some lst =>
          rw [hj] at hx1
          obtain ⟨e, he, hxe⟩ := List.mem_map.mp hx1
          exact Or.inr ⟨id, List.mem_cons_self id t, lst, hj, e, he, hxe.symm⟩
      · rcases ih.1 x hx2 with ⟨hx0, id2, hid2, hj2⟩ | ⟨id2, hid2, lst, hj2, e, he, hxe⟩
        · exact Or.inl ⟨hx0, id2, List.mem_cons_of_mem id hid2, hj2⟩
        · exact Or.inr ⟨id2, List.mem_cons_of_mem id hid2, lst, hj2, e, he, hxe⟩
    · intro id2 hid2 hj2
      rw [selectedEdges_cons]
      rcases List.mem_cons.mp hid2 with rfl | ht
      · rw [hj2]
        simp
      · exact List.mem_append.mpr (Or.inr (ih.2 id2 ht hj2))

/-- Witness for C7: applies the amended theorem at a selection containing
an id absent from a nonempty nodesConnections. -/
theorem selectedEdges_elements_witness :
    (none : Option String) ∈ selectedEdges ["A"] [("B", ["x"])] :=
  (selectedEdges_elements ["A"] [("B", ["x"])]).2 "A" (by decide) (by decide)

/-- C8: when every selected id is present in nodesConnections,
selectedEdges is exactly the concatenation, in selection insertion order,
of the per-id lists in their own order (the flatten described by the
spec), elementwise wrapped in `some` by the embedding of defined values. -/
theorem selectedEdges_eq_spec (sel : List String) (nc : NodesConnections)
    (h : ∀ id ∈ sel, (jget nc id).isSome = true) :
    selectedEdges sel nc = (selectedEdgesSpec sel nc).map some := by
  induction sel with
  | nil => rfl
  | cons id t ih =>
    have hid := h id (List.mem_cons_self id t)
    cases hj : jget nc id with
    | none =>
      rw [hj] at hid
      simp at hid
    | some lst =>
      rw [selectedEdges_cons, selectedEdgesSpec_cons, hj, List.map_append]
      simp only [Option.getD_some]
      rw [ih fun id2 hid2 => h id2 (List.mem_cons_of_mem id hid2)]

/-- Witness for C8: the spec's own end-to-end scenario, selection [A, B]
with nodesConnections A maps-to [B], B maps-to [A]. -/
theorem selectedEdges_eq_spec_witness :
    (∀ id ∈ ["A", "B"], (jget [("A", [("B" : String)]), ("B", ["A"])] id).isSome = true) ∧
    selectedEdges ["A", "B"] [("A", ["B"]), ("B", ["A"])] =
      (selectedEdgesSpec ["A", "B"] [("A", ["B"]), ("B", ["A"])]).map some :=
  ⟨by decide, selectedEdges_eq_spec ["A", "B"] [("A", ["B"]), ("B", ["A"])] (by decide)⟩

/-- C9: the claim asserts mutators never mutate containers reachable from
a prior snapshot.  Evaluating the reference-semantics embedding at a prior
snapshot whose key a references the array holding [(a,b)]: after
addActiveEdges([(a,c)]), the list reachable from the unchanged prior
snapshot has become [(a,b),(a,c)] — the updater pushed into the shared
array object in place (and it also rebinds keys on the prior map itself
before the shallow `new Map` copy). -/
theorem addActiveEdges_mutates_prior_snapshot :
    viewHeap [("a", 0), ("b", 1)]
      (addActiveEdgesHeap [("a", 0), ("b", 1)] [(0, [("a", "b")]), (1, [("a", "b")])]
        [("a", "c")]).2 "a" = [("a", "b"), ("a", "c")] ∧
    viewHeap [("a", 0), ("b", 1)] [(0, [("a", "b")]), (1, [("a", "b")])] "a" = [("a", "b")] ∧
    viewHeap [("a", 0), ("b", 1)]
      (addActiveEdgesHeap [("a", 0), ("b", 1)] [(0, [("a", "b")]), (1, [("a", "b")])]
        [("a", "c")]).2 "a" ≠
      viewHeap [("a", 0), ("b", 1)] [(0, [("a", "b")]), (1, [("a", "b")])] "a" := by
  decide

/-- C10: after removeActiveEdges, every endpoint of every pair of the
batch is a key of the index; removal never deletes an existing key; and an
endpoint that was not a key before the call ends bound to the empty
list. -/
theorem removeActiveEdges_keys (m : ActiveEdges) (es : List Edge) (l r k : String) :
    ((l, r) ∈ es →
      containsKey (removeActiveEdges m es) l = true ∧
      containsKey (removeActiveEdges m es) r = true) ∧
    (containsKey m k = true → containsKey (removeActiveEdges m es) k = true) ∧
    ((l, r) ∈ es → containsKey m l = false →
      jget (removeActiveEdges m es) l = some []) ∧
    ((l, r) ∈ es → containsKey m r = false →
      jget (removeActiveEdges m es) r = some []) := by
  refine ⟨remove_containsKey_of_mem m es l r, remove_containsKey_mono m es k, ?_, ?_⟩
  · intro hm hc
    exact jget_eq_some_nil _ _ ((remove_containsKey_of_mem m es l r hm).1)
      (remove_getD_empty m es l (getD_of_not_containsKey m l hc))
  · intro hm hc
    exact jget_eq_some_nil _ _ ((remove_containsKey_of_mem m es l r hm).2)
      (remove_getD_empty m es r (getD_of_not_containsKey m r hc))

/-- Witness for C10: removing (A,B) from an index that only knows key Z
creates keys A and B bound to empty lists and keeps key Z. -/
theorem removeActiveEdges_keys_witness :
    containsKey (removeActiveEdges [("Z", [(("p", "q") : Edge)])] [("A", "B")]) "A" = true ∧
    containsKey (removeActiveEdges [("Z", [(("p", "q") : Edge)])] [("A", "B")]) "Z" = true ∧
    jget (removeActiveEdges [("Z", [(("p", "q") : Edge)])] [("A", "B")]) "A" = some [] :=
  ⟨((removeActiveEdges_keys [("Z", [(("p", "q") : Edge)])] [("A", "B")] "A" "B" "Z").1
      (by decide)).1,
   (removeActiveEdges_keys [("Z", [(("p", "q") : Edge)])] [("A", "B")] "A" "B" "Z").2.1
      (by decide),
   (removeActiveEdges_keys [("Z", [(("p", "q") : Edge)])] [("A", "B")] "A" "B" "Z").2.2.1
      (by decide) (by decide)⟩
